import Mathlib

/-!
# Verification of the XREAL streaming-client core

Shallow embedding of the core components of the XREAL One Pro streaming
client (src/imu_reader.py and src/live_video_viewer.py): the heuristic
IMU frame synchronizer `ImuPacketParser.find_packet`, the read-loop buffer
policy of `ImuReader._read_loop`, the data-callback isolation, and the
video decoder `XrealEyeViewer.decode_frame`.

Bytes are modelled as `Nat` and byte buffers as `List Nat`.  A 32-bit
little-endian float is represented by its 32-bit pattern (a `Nat` below
2^32): decoding bytes into floats is bit-exact, so the bit pattern is a
faithful, executable stand-in for the IEEE-754 value.  The numeric
plausibility test of the source (each gyro float strictly between -10 and
10; accelerometer magnitude, computed with double-precision arithmetic,
strictly between 9.0 and 11.0) is floating-point arithmetic and is
abstracted as a pluggable `Plausibility` record of two boolean predicates,
exactly following the conjunction structure of the source:
`gyro_ok and 9.0 < accel_mag < 11.0`.  The local clock read by
`time.time()` is passed in explicitly as a `now` argument.
-/

namespace XrealClient

/-- Byte access: `buffer[i]` with the out-of-range default 0.  Inside the
scan every access is in range, so the default never shows through. -/
def byteAt (buffer : List Nat) (i : Nat) : Nat := (buffer[i]?).getD 0

/-- The 32-bit little-endian word starting at byte `i`, as produced by one
of the six floats of a struct.unpack of 6 floats in little-endian order. -/
def le32 (buffer : List Nat) (i : Nat) : Nat :=
  byteAt buffer i + 256 * byteAt buffer (i + 1) + 65536 * byteAt buffer (i + 2) +
    16777216 * byteAt buffer (i + 3)

/-- ImuData of imu_reader.py: three gyro floats, three accel floats (all as
32-bit patterns) and the local receive timestamp, set from the clock. -/
structure ImuData where
  gyro_x : Nat
  gyro_y : Nat
  gyro_z : Nat
  accel_x : Nat
  accel_y : Nat
  accel_z : Nat
  timestamp : Nat
  deriving DecidableEq, Repr

/-- The plausibility predicate of find_packet, split exactly as in the
source: a check on the three gyro values and a check on the three accel
values.  The concrete IEEE-754 computations (strict bounds -10 and 10 on
each gyro float; double-precision magnitude strictly inside 9.0 and 11.0)
are floating-point and are kept as parameters. -/
structure Plausibility where
  gyroOk : Nat → Nat → Nat → Bool
  accelMagOk : Nat → Nat → Nat → Bool

/-- The six words unpacked from buffer at a candidate offset, timestamped
with the clock value, as in the ImuData constructor call of find_packet. -/
def decodeAt (buffer : List Nat) (offset : Nat) (now : Nat) : ImuData :=
  { gyro_x := le32 buffer offset
    gyro_y := le32 buffer (offset + 4)
    gyro_z := le32 buffer (offset + 8)
    accel_x := le32 buffer (offset + 12)
    accel_y := le32 buffer (offset + 16)
    accel_z := le32 buffer (offset + 20)
    timestamp := now }

/-- The acceptance test of find_packet at one offset:
gyro_ok on values 0..2 and the accel-magnitude check on values 3..5.
The source unpacks buffer[offset : offset+24] and tests the six values;
every offset the loop tests has offset + 24 < len(buffer), so reading at
absolute positions is the same and the struct.error branch is dead. -/
def plausibleAt (p : Plausibility) (buffer : List Nat) (offset : Nat) : Bool :=
  p.gyroOk (le32 buffer offset) (le32 buffer (offset + 4)) (le32 buffer (offset + 8)) &&
    p.accelMagOk (le32 buffer (offset + 12)) (le32 buffer (offset + 16))
      (le32 buffer (offset + 20))

/-- The offsets tested by the loop, in order: range(0, len(buffer) - 24, 4),
that is the multiples of 4 strictly below len(buffer) - 24. -/
def scanOffsets (n : Nat) : List Nat :=
  (List.range ((n - 24 + 3) / 4)).map (fun i => i * 4)

/-- Left-to-right scan over a list of candidate offsets: the first offset
passing the plausibility test is accepted, with consumed count offset + 24. -/
def scanFrom (p : Plausibility) (now : Nat) (buffer : List Nat) :
    List Nat → Option (ImuData × Nat)
  | [] => none
  | off :: rest =>
    if plausibleAt p buffer off then some (decodeAt buffer off now, off + 24)
    else scanFrom p now buffer rest

/-- ImuPacketParser.find_packet: scan the buffer at 4-byte-aligned offsets
strictly below len(buffer) - 24 and return the first plausible payload
together with the number of bytes consumed, or none. -/
def find_packet (p : Plausibility) (now : Nat) (buffer : List Nat) :
    Option (ImuData × Nat) :=
  scanFrom p now buffer (scanOffsets buffer.length)

/-- Little-endian encoding of a 32-bit word, the byte image struct.pack
would produce for one float. -/
def encodeLE32 (w : Nat) : List Nat :=
  [w % 256, w / 256 % 256, w / 65536 % 256, w / 16777216 % 256]

/-- Little-endian encoding of a 24-byte payload of six 32-bit words. -/
def encode6 (w0 w1 w2 w3 w4 w5 : Nat) : List Nat :=
  encodeLE32 w0 ++ encodeLE32 w1 ++ encodeLE32 w2 ++ encodeLE32 w3 ++
    encodeLE32 w4 ++ encodeLE32 w5

/-- Plausibility instance accepting everything (both checks pass). -/
def pTrue : Plausibility := ⟨fun _ _ _ => true, fun _ _ _ => true⟩

/-- Plausibility instance rejecting everything. -/
def pFalse : Plausibility := ⟨fun _ _ _ => false, fun _ _ _ => false⟩

/-- Plausibility instance whose gyro check passes and whose
accel-magnitude check always fails. -/
def pGyroOnly : Plausibility := ⟨fun _ _ _ => true, fun _ _ _ => false⟩

/-! ## Basic facts about the scan -/

theorem mem_scanOffsets {o n : Nat} : o ∈ scanOffsets n ↔ 4 ∣ o ∧ o + 24 < n := by
  simp only [scanOffsets, List.mem_map, List.mem_range]
  constructor
  · rintro ⟨i, hi, rfl⟩
    exact ⟨⟨i, by omega⟩, by omega⟩
  · rintro ⟨⟨i, rfl⟩, h⟩
    exact ⟨i, by omega, by omega⟩

theorem scanOffsets_pairwise (n : Nat) : (scanOffsets n).Pairwise (· < ·) := by
  refine List.Pairwise.map _ (fun a b h => ?_) (List.pairwise_lt_range _)
  omega

theorem scanFrom_eq_none {p : Plausibility} {now : Nat} {buffer : List Nat}
    {l : List Nat} (h : ∀ o ∈ l, plausibleAt p buffer o = false) :
    scanFrom p now buffer l = none := by
  induction l with
  | nil => rfl
  | cons o rest ih =>
    simp only [scanFrom]
    rw [h o (List.mem_cons_self o rest)]
    exact ih fun o ho => h o (List.mem_cons_of_mem _ ho)

theorem scanFrom_some {p : Plausibility} {now : Nat} {buffer : List Nat}
    {l : List Nat} {r : ImuData × Nat} (h : scanFrom p now buffer l = some r) :
    ∃ o ∈ l, plausibleAt p buffer o = true ∧ r = (decodeAt buffer o now, o + 24) := by
  induction l with
  | nil => exact absurd h (by simp [scanFrom])
  | cons o rest ih =>
    simp only [scanFrom] at h
    by_cases ho : plausibleAt p buffer o = true
    · rw [if_pos ho] at h
      exact ⟨o, List.mem_cons_self o rest, ho, (Option.some_injective _ h).symm⟩
    · rw [if_neg ho] at h
      obtain ⟨o', ho', hp, hr⟩ := ih h
      exact ⟨o', List.mem_cons_of_mem _ ho', hp, hr⟩

theorem scanFrom_eq_some_of_first {p : Plausibility} {now : Nat} {buffer : List Nat}
    {l : List Nat} {k : Nat} (hsort : l.Pairwise (· < ·)) (hmem : k ∈ l)
    (hk : plausibleAt p buffer k = true)
    (hmin : ∀ j ∈ l, j < k → plausibleAt p buffer j = false) :
    scanFrom p now buffer l = some (decodeAt buffer k now, k + 24) := by
  induction l with
  | nil => exact absurd hmem (List.not_mem_nil k)
  | cons o rest ih =>
    simp only [scanFrom]
    by_cases ho : plausibleAt p buffer o = true
    · rw [if_pos ho]
      have hok : o = k := by
        rcases List.mem_cons.mp hmem with h | h
        · exact h.symm
        · have : o < k := (List.pairwise_cons.mp hsort).1 k h
          exact absurd ho (by simp [hmin o (List.mem_cons_self o rest) this])
      rw [hok]
    · rw [if_neg ho]
      have hkrest : k ∈ rest := by
        rcases List.mem_cons.mp hmem with h | h
        · exact absurd (h ▸ hk) ho
        · exact h
      exact ih (List.pairwise_cons.mp hsort).2 hkrest
        fun j hj hjk => hmin j (List.mem_cons_of_mem _ hj) hjk

theorem find_packet_eq_none {p : Plausibility} {now : Nat} {buffer : List Nat}
    (h : ∀ o, 4 ∣ o → o + 24 < buffer.length → plausibleAt p buffer o = false) :
    find_packet p now buffer = none :=
  scanFrom_eq_none fun o ho => by
    obtain ⟨h4, hlt⟩ := mem_scanOffsets.mp ho
    exact h o h4 hlt

theorem find_packet_some {p : Plausibility} {now : Nat} {buffer : List Nat}
    {r : ImuData × Nat} (h : find_packet p now buffer = some r) :
    ∃ o, 4 ∣ o ∧ o + 24 < buffer.length ∧ plausibleAt p buffer o = true ∧
      r = (decodeAt buffer o now, o + 24) := by
  obtain ⟨o, ho, hp, hr⟩ := scanFrom_some h
  obtain ⟨h4, hlt⟩ := mem_scanOffsets.mp ho
  exact ⟨o, h4, hlt, hp, hr⟩

theorem find_packet_eq_some_of_first {p : Plausibility} {now : Nat}
    {buffer : List Nat} {k : Nat} (h4 : 4 ∣ k) (hlt : k + 24 < buffer.length)
    (hk : plausibleAt p buffer k = true)
    (hmin : ∀ j, 4 ∣ j → j + 24 < buffer.length → j < k →
      plausibleAt p buffer j = false) :
    find_packet p now buffer = some (decodeAt buffer k now, k + 24) :=
  scanFrom_eq_some_of_first (scanOffsets_pairwise _)
    (mem_scanOffsets.mpr ⟨h4, hlt⟩) hk fun j hj hjk => by
      obtain ⟨hj4, hjlt⟩ := mem_scanOffsets.mp hj
      exact hmin j hj4 hjlt hjk

/-! ## Decoding bytes placed at an offset -/

theorem byteAt_append_right (pre l : List Nat) (j : Nat) :
    byteAt (pre ++ l) (pre.length + j) = byteAt l j := by
  unfold byteAt
  rw [List.getElem?_append_right (by omega), Nat.add_sub_cancel_left]

theorem le32_append (pre l : List Nat) (j : Nat) :
    le32 (pre ++ l) (pre.length + j) = le32 l j := by
  unfold le32
  rw [show pre.length + j + 1 = pre.length + (j + 1) by omega,
    show pre.length + j + 2 = pre.length + (j + 2) by omega,
    show pre.length + j + 3 = pre.length + (j + 3) by omega,
    byteAt_append_right, byteAt_append_right, byteAt_append_right, byteAt_append_right]

theorem decodeAt_append (pre l : List Nat) (now : Nat) :
    decodeAt (pre ++ l) pre.length now = decodeAt l 0 now := by
  have h0 := le32_append pre l 0
  have h4 := le32_append pre l 4
  have h8 := le32_append pre l 8
  have h12 := le32_append pre l 12
  have h16 := le32_append pre l 16
  have h20 := le32_append pre l 20
  rw [Nat.add_zero] at h0
  unfold decodeAt
  simp only [Nat.zero_add]
  rw [h0, h4, h8, h12, h16, h20]

theorem length_encode6 (w0 w1 w2 w3 w4 w5 : Nat) :
    (encode6 w0 w1 w2 w3 w4 w5).length = 24 := rfl

theorem decodeAt_encode6 (w0 w1 w2 w3 w4 w5 now : Nat) (post : List Nat)
    (h0 : w0 < 4294967296) (h1 : w1 < 4294967296) (h2 : w2 < 4294967296)
    (h3 : w3 < 4294967296) (h4 : w4 < 4294967296) (h5 : w5 < 4294967296) :
    decodeAt (encode6 w0 w1 w2 w3 w4 w5 ++ post) 0 now =
      ⟨w0, w1, w2, w3, w4, w5, now⟩ := by
  simp only [decodeAt, ImuData.mk.injEq, Nat.zero_add]
  refine ⟨?_, ?_, ?_, ?_, ?_, ?_, trivial⟩
  all_goals simp [le32, byteAt, encode6, encodeLE32]
  all_goals omega

/-! ## The read loop of ImuReader

The inner while of _read_loop repeatedly extracts packets from the front
of the buffer; when find_packet yields nothing, a buffer longer than
10000 bytes is cut to its trailing 1000 bytes before more data is read. -/

theorem find_packet_consumed {p : Plausibility} {now : Nat} {buffer : List Nat}
    {d : ImuData} {c : Nat} (h : find_packet p now buffer = some (d, c)) :
    24 ≤ c ∧ c < buffer.length := by
  obtain ⟨o, _, hlt, _, hr⟩ := find_packet_some h
  injection hr with hd hc
  omega

/-- The overflow policy applied when find_packet yields nothing: a buffer
longer than 10000 bytes is replaced by its trailing 1000 bytes. -/
def capBuffer (buffer : List Nat) : List Nat :=
  if 10000 < buffer.length then buffer.drop (buffer.length - 1000) else buffer

/-- The inner while of _read_loop, with an explicit iteration bound:
repeatedly find a packet and advance the buffer past the consumed bytes;
when no further packet is found, apply the overflow policy and stop.
Each found packet consumes at least 24 bytes (find_packet_consumed), so
fuel = buffer length more than covers every iteration and the fuel-0
branch is unreachable from parsePass (parsePassGo_fuel). -/
def parsePassGo (p : Plausibility) (now : Nat) :
    Nat → List Nat → List Nat × List ImuData
  | 0, buffer => (capBuffer buffer, [])
  | fuel + 1, buffer =>
    match find_packet p now buffer with
    | none => (capBuffer buffer, [])
    | some (d, c) =>
      let r := parsePassGo p now fuel (buffer.drop c)
      (r.1, d :: r.2)

/-- One parse pass of ImuReader._read_loop (lines 323 to 334).  Returns
the final buffer together with the decoded samples in extraction order;
the cache and callback handling for each sample is modelled separately by
handlePacket. -/
def parsePass (p : Plausibility) (now : Nat) (buffer : List Nat) :
    List Nat × List ImuData :=
  parsePassGo p now buffer.length buffer

/-- Any fuel at least the buffer length gives the same result: the fuel
bound of parsePassGo never cuts the loop short. -/
theorem parsePassGo_fuel (p : Plausibility) (now : Nat) :
    ∀ f g buffer, buffer.length ≤ f → buffer.length ≤ g →
      parsePassGo p now f buffer = parsePassGo p now g buffer := by
  intro f
  induction f with
  | zero =>
    intro g buffer hf _
    have hnone : find_packet p now buffer = none :=
      find_packet_eq_none fun o _ hlt => absurd hlt (by omega)
    cases g with
    | zero => rfl
    | succ m => simp [parsePassGo, hnone]
  | succ n ih =>
    intro g buffer hf hg
    cases g with
    | zero =>
      have hnone : find_packet p now buffer = none :=
        find_packet_eq_none fun o _ hlt => absurd hlt (by omega)
      simp [parsePassGo, hnone]
    | succ m =>
      simp only [parsePassGo]
      cases hfp : find_packet p now buffer with
      | none => rfl
      | some r =>
        obtain ⟨d, c⟩ := r
        have hc := find_packet_consumed hfp
        have := ih m (buffer.drop c)
          (by simp only [List.length_drop]; omega)
          (by simp only [List.length_drop]; omega)
        simp only [this]

/-! ## The data callback of the read loop

The consumer callback is modelled as a fallible function into Except; an
uncaught exception would surface as an error value of the step.  Lines
340 to 348 of _read_loop replace the cached latest value under the lock
and then invoke the callback inside a try-except that logs and swallows
every exception; the statistics counters and the lock (the loop thread is
the only writer) are elided. -/

/-- The guarded callback invocation: if on_data is registered, call it;
an error it raises is caught (and logged), so the step always returns ok. -/
def dataCallbackStep {ε : Type} (on_data : Option (ImuData → Except ε Unit))
    (d : ImuData) : Except ε Unit :=
  match on_data with
  | none => Except.ok ()
  | some cb =>
    match cb d with
    | Except.ok u => Except.ok u
    | Except.error _ => Except.ok ()

/-- Processing of one decoded packet: the latest-data cache (whatever it
held) is replaced by the new sample, then the callback is invoked through
the try-except.  The result is the read loop continuation: an error value
would mean an exception escaping into the loop body. -/
def handlePacket {ε : Type} (on_data : Option (ImuData → Except ε Unit))
    (d : ImuData) (_latest : Option ImuData) : Except ε (Option ImuData) :=
  match dataCallbackStep on_data d with
  | Except.ok _ => Except.ok (some d)
  | Except.error e => Except.error e

/-! ## The video decoder of live_video_viewer.py -/

def PACKET_SIZE : Nat := 193862

def HEADER_OFFSET : Nat := 320

def WIDTH : Nat := 512

def HEIGHT : Nat := 378

def IMAGE_SIZE : Nat := WIDTH * HEIGHT

/-- XrealEyeViewer.decode_frame: packets shorter than header plus image
give None; otherwise the IMAGE_SIZE bytes after the 320-byte header are
mapped through the nibble transform (high nibble scaled by 17) and cut
into HEIGHT rows of WIDTH pixels. -/
def decode_frame (packet : List Nat) : Option (List (List Nat)) :=
  if packet.length < HEADER_OFFSET + IMAGE_SIZE then none
  else
    let data := (packet.drop HEADER_OFFSET).take IMAGE_SIZE
    let pixels := data.map (fun b => b / 16 % 16 * 17)
    some ((List.range HEIGHT).map (fun y => (pixels.drop (y * WIDTH)).take WIDTH))

theorem decode_frame_spec (packet : List Nat)
    (h : HEADER_OFFSET + IMAGE_SIZE ≤ packet.length) :
    ∃ img, decode_frame packet = some img ∧ img.length = HEIGHT ∧
      ∀ y, y < HEIGHT →
        (img.getD y []).length = WIDTH ∧
        ∀ x, x < WIDTH →
          (img.getD y []).getD x 0 =
            byteAt packet (HEADER_OFFSET + (y * WIDTH + x)) / 16 % 16 * 17 := by
  unfold decode_frame
  rw [if_neg (by omega)]
  refine ⟨_, rfl, by simp, ?_⟩
  intro y hy
  have hfits : y * WIDTH + WIDTH ≤ IMAGE_SIZE := by
    have h1 : (y + 1) * WIDTH ≤ HEIGHT * WIDTH := Nat.mul_le_mul_right _ hy
    have h2 : HEIGHT * WIDTH = IMAGE_SIZE := Nat.mul_comm HEIGHT WIDTH
    have h3 : (y + 1) * WIDTH = y * WIDTH + WIDTH := Nat.succ_mul y WIDTH
    omega
  have hdata : (((packet.drop HEADER_OFFSET).take IMAGE_SIZE).map
      (fun b => b / 16 % 16 * 17)).length = IMAGE_SIZE := by
    simp only [List.length_map, List.length_take, List.length_drop]
    omega
  have hrow : (((List.range HEIGHT).map (fun y =>
      ((((packet.drop HEADER_OFFSET).take IMAGE_SIZE).map
        (fun b => b / 16 % 16 * 17)).drop (y * WIDTH)).take WIDTH)).getD y []) =
      ((((packet.drop HEADER_OFFSET).take IMAGE_SIZE).map
        (fun b => b / 16 % 16 * 17)).drop (y * WIDTH)).take WIDTH := by
    rw [List.getD_eq_getElem?_getD, List.getElem?_map, List.getElem?_range hy]
    rfl
  rw [hrow]
  constructor
  · simp only [List.length_take, List.length_drop, hdata]
    omega
  · intro x hx
    have hidx : y * WIDTH + x < IMAGE_SIZE := by omega
    rw [List.getD_eq_getElem?_getD, List.getElem?_take, if_pos hx,
      List.getElem?_drop, List.getElem?_map, List.getElem?_take, if_pos hidx,
      List.getElem?_drop, List.getElem?_eq_getElem (by omega)]
    unfold byteAt
    rw [List.getElem?_eq_getElem (l := packet) (by omega)]
    rfl

/-- Bytes appended past the header-plus-image region do not change the
decoded frame: the decoder reads only bytes 320 to 193855. -/
theorem decode_frame_ignores_tail (p q : List Nat)
    (hp : p.length = HEADER_OFFSET + IMAGE_SIZE) :
    decode_frame (p ++ q) = decode_frame p := by
  have hlen : (p ++ q).length = p.length + q.length := List.length_append p q
  unfold decode_frame
  rw [if_neg (by omega), if_neg (by omega)]
  have hdl : (p.drop HEADER_OFFSET).length = IMAGE_SIZE := by
    rw [List.length_drop]
    omega
  have hdata : ((p ++ q).drop HEADER_OFFSET).take IMAGE_SIZE =
      (p.drop HEADER_OFFSET).take IMAGE_SIZE := by
    rw [List.drop_append_of_le_length (by omega), List.take_left' hdl,
      List.take_of_length_le (by omega)]
  rw [hdata]

/-- Plausibility instance that accepts a payload exactly when its first
word is 1; used to build concrete buffers with a unique valid offset. -/
def pW : Plausibility := ⟨fun a _ _ => a == 1, fun _ _ _ => true⟩

/-- C1 as stated is false at the boundary: a buffer that is exactly one
valid 24-byte payload (offset 0, 4-byte aligned, no other offset even
fits a payload) makes find_packet return None, because the scan stops
strictly before len(buffer) - 24 = 0. -/
theorem c1_counterexample :
    plausibleAt pTrue (encode6 1 2 3 4 5 6) 0 = true ∧
    (encode6 1 2 3 4 5 6).length = 24 ∧
    find_packet pTrue 0 (encode6 1 2 3 4 5 6) = none := by decide

/-- C1 (amended): for a buffer pre ++ payload ++ post holding one
24-byte payload of six little-endian 32-bit words at the 4-byte-aligned
offset len(pre), with at least one byte after the payload and no other
plausible scanned offset, find_packet consumes len(pre) + 24 bytes and
returns the six words bit-exactly. -/
theorem c1_single_payload_roundtrip (p : Plausibility) (now : Nat)
    (w0 w1 w2 w3 w4 w5 : Nat) (pre post : List Nat)
    (hw0 : w0 < 4294967296) (hw1 : w1 < 4294967296) (hw2 : w2 < 4294967296)
    (hw3 : w3 < 4294967296) (hw4 : w4 < 4294967296) (hw5 : w5 < 4294967296)
    (halign : 4 ∣ pre.length) (hpost : post ≠ [])
    (hk : plausibleAt p (pre ++ encode6 w0 w1 w2 w3 w4 w5 ++ post) pre.length = true)
    (hother : ∀ j, 4 ∣ j → j + 24 < (pre ++ encode6 w0 w1 w2 w3 w4 w5 ++ post).length →
      j ≠ pre.length → plausibleAt p (pre ++ encode6 w0 w1 w2 w3 w4 w5 ++ post) j = false) :
    find_packet p now (pre ++ encode6 w0 w1 w2 w3 w4 w5 ++ post) =
      some (⟨w0, w1, w2, w3, w4, w5, now⟩, pre.length + 24) := by
  have hlen : (pre ++ encode6 w0 w1 w2 w3 w4 w5 ++ post).length =
      pre.length + (24 + post.length) := by
    simp [length_encode6]
  have hpost1 : 0 < post.length := List.length_pos.mpr hpost
  have hfind := @find_packet_eq_some_of_first p now
    (pre ++ encode6 w0 w1 w2 w3 w4 w5 ++ post) pre.length halign (by omega) hk
    (fun j hj4 hjlt hjk => hother j hj4 hjlt (by omega))
  rw [hfind, List.append_assoc, decodeAt_append pre (encode6 w0 w1 w2 w3 w4 w5 ++ post) now,
    decodeAt_encode6 w0 w1 w2 w3 w4 w5 now post hw0 hw1 hw2 hw3 hw4 hw5]

theorem c1_witness :
    (1:Nat) < 4294967296 ∧ 4 ∣ ([5, 0, 0, 0] : List Nat).length ∧
    ([9] : List Nat) ≠ [] ∧
    plausibleAt pW ([5, 0, 0, 0] ++ encode6 1 2 3 4 5 6 ++ [9]) 4 = true ∧
    find_packet pW 7 ([5, 0, 0, 0] ++ encode6 1 2 3 4 5 6 ++ [9]) =
      some (⟨1, 2, 3, 4, 5, 6, 7⟩, 28) := by
  refine ⟨by omega, by decide, by decide, by decide, ?_⟩
  have h := c1_single_payload_roundtrip pW 7 1 2 3 4 5 6 [5, 0, 0, 0] [9]
    (by omega) (by omega) (by omega) (by omega) (by omega) (by omega)
    (by decide) (by decide) (by decide) ?hother
  · simpa using h
  case hother =>
    intro j hj4 hjlt hjne
    have hlen : ([5, 0, 0, 0] ++ encode6 1 2 3 4 5 6 ++ [9] : List Nat).length = 29 := by decide
    rw [hlen] at hjlt
    have : j = 0 := by
      simp only [List.length_cons, List.length_nil] at hjne
      omega
    subst this
    decide

/-- C2: an offset whose accel-magnitude check fails is never accepted,
and a buffer all of whose scanned offsets fail it yields None.  The
IEEE-754 magnitude computation itself is the accelMagOk component. -/
theorem c2_accel_gate (p : Plausibility) (now : Nat) (buffer : List Nat) :
    ((∀ o, 4 ∣ o → o + 24 < buffer.length →
        p.accelMagOk (le32 buffer (o + 12)) (le32 buffer (o + 16))
          (le32 buffer (o + 20)) = false) →
      find_packet p now buffer = none) ∧
    (∀ d c, find_packet p now buffer = some (d, c) →
      p.accelMagOk d.accel_x d.accel_y d.accel_z = true) := by
  constructor
  · intro h
    apply find_packet_eq_none
    intro o h4 hlt
    unfold plausibleAt
    rw [h o h4 hlt]
    simp
  · intro d c h
    obtain ⟨o, h4, hlt, hp, hr⟩ := find_packet_some h
    injection hr with hd hc
    subst hd
    unfold plausibleAt at hp
    simp only [Bool.and_eq_true] at hp
    exact hp.2

theorem c2_witness :
    find_packet pGyroOnly 0 (List.replicate 32 0) = none ∧
    pTrue.accelMagOk (decodeAt (List.replicate 25 0) 0 0).accel_x
      (decodeAt (List.replicate 25 0) 0 0).accel_y
      (decodeAt (List.replicate 25 0) 0 0).accel_z = true :=
  ⟨(c2_accel_gate pGyroOnly 0 _).1 (fun _ _ _ => rfl),
    (c2_accel_gate pTrue 0 (List.replicate 25 0)).2 _ 24 (by decide)⟩

/-- C3 as stated is false at the boundary: in a 24-byte buffer the
aligned offset 0 satisfies the predicate on a complete payload, yet
find_packet returns None because offset 0 = len - 24 is never tested. -/
theorem c3_counterexample :
    plausibleAt pTrue (List.replicate 24 0) 0 = true ∧ 4 ∣ (0:Nat) ∧
    (List.replicate 24 0).length = 24 ∧
    find_packet pTrue 0 (List.replicate 24 0) = none := by decide

/-- C3 (amended): when some 4-byte-aligned offset k with k + 24 <
len(buffer) satisfies the predicate and every smaller scanned offset
fails it, find_packet accepts exactly k with consumed length k + 24;
moreover every offset the scan tests satisfies o + 24 < len(buffer), so
the offset len(buffer) - 24 itself is never tested. -/
theorem c3_lowest_offset (p : Plausibility) (now : Nat) (buffer : List Nat)
    (k : Nat) (h4 : 4 ∣ k) (hlt : k + 24 < buffer.length)
    (hk : plausibleAt p buffer k = true)
    (hmin : ∀ j, 4 ∣ j → j + 24 < buffer.length → j < k →
      plausibleAt p buffer j = false) :
    find_packet p now buffer = some (decodeAt buffer k now, k + 24) ∧
    ∀ o ∈ scanOffsets buffer.length, o + 24 < buffer.length :=
  ⟨find_packet_eq_some_of_first h4 hlt hk hmin,
    fun _ ho => (mem_scanOffsets.mp ho).2⟩

theorem c3_witness :
    4 ∣ (0:Nat) ∧ 0 + 24 < (List.replicate 28 (0:Nat)).length ∧
    plausibleAt pTrue (List.replicate 28 0) 0 = true ∧
    find_packet pTrue 3 (List.replicate 28 0) =
      some (decodeAt (List.replicate 28 0) 0 3, 0 + 24) := by
  refine ⟨by decide, by decide, by decide, ?_⟩
  exact (c3_lowest_offset pTrue 3 (List.replicate 28 0) 0 (by decide) (by decide)
    (by decide) (fun j _ _ hj => absurd hj (by omega))).1

/-- C9: buffers of 24 or fewer bytes always yield None; an accepted
packet always has consumed length strictly below the buffer length, so
the offset len - 24 is never tested; and a payload ending exactly at the
buffer end is detected as soon as one further byte is appended. -/
theorem c9_boundary (p : Plausibility) (now : Nat) (buffer : List Nat) :
    (buffer.length ≤ 24 → find_packet p now buffer = none) ∧
    (∀ d c, find_packet p now buffer = some (d, c) → c < buffer.length) ∧
    (∀ b k, 4 ∣ k → buffer.length = k + 24 →
      plausibleAt p (buffer ++ [b]) k = true →
      (∀ j, 4 ∣ j → j < k → plausibleAt p (buffer ++ [b]) j = false) →
      find_packet p now (buffer ++ [b]) =
        some (decodeAt (buffer ++ [b]) k now, k + 24)) := by
  refine ⟨?_, ?_, ?_⟩
  · intro h
    exact find_packet_eq_none fun o _ hlt => absurd hlt (by omega)
  · intro d c h
    obtain ⟨o, _, hlt, _, hr⟩ := find_packet_some h
    injection hr with hd hc
    omega
  · intro b k h4 hlen hk hmin
    apply find_packet_eq_some_of_first h4
      (by simp only [List.length_append, List.length_cons, List.length_nil]; omega) hk
    intro j hj4 _ hjk
    exact hmin j hj4 hjk

theorem c9_witness :
    (List.replicate 24 (1:Nat)).length ≤ 24 ∧
    find_packet pTrue 0 (List.replicate 24 1) = none ∧
    24 < (List.replicate 25 (0:Nat)).length ∧
    find_packet pTrue 0 (List.replicate 24 1 ++ [0]) =
      some (decodeAt (List.replicate 24 1 ++ [0]) 0 0, 0 + 24) := by
  refine ⟨by decide, (c9_boundary pTrue 0 _).1 (by decide), ?_, ?_⟩
  · exact (c9_boundary pTrue 0 (List.replicate 25 0)).2.1
      (decodeAt (List.replicate 25 0) 0 0) 24 (by decide)
  · exact (c9_boundary pTrue 0 (List.replicate 24 1)).2.2 0 0 (by decide)
      (by decide) (by decide) (fun j _ hj => absurd hj (by omega))

/-! ## Claims C4 to C10 -/

theorem capBuffer_length (buffer : List Nat) : (capBuffer buffer).length ≤ 10000 := by
  unfold capBuffer
  split
  · rw [List.length_drop]
    omega
  · omega

theorem capBuffer_suffix (buffer : List Nat) : capBuffer buffer <:+ buffer := by
  unfold capBuffer
  split
  · exact List.drop_suffix _ _
  · exact List.suffix_refl _

theorem parsePassGo_bounded (p : Plausibility) (now : Nat) :
    ∀ fuel buffer, (parsePassGo p now fuel buffer).1.length ≤ 10000 ∧
      (parsePassGo p now fuel buffer).1 <:+ buffer := by
  intro fuel
  induction fuel with
  | zero => exact fun buffer => ⟨capBuffer_length buffer, capBuffer_suffix buffer⟩
  | succ n ih =>
    intro buffer
    simp only [parsePassGo]
    cases hfp : find_packet p now buffer with
    | none => exact ⟨capBuffer_length buffer, capBuffer_suffix buffer⟩
    | some r =>
      obtain ⟨d, c⟩ := r
      exact ⟨(ih (buffer.drop c)).1,
        (ih (buffer.drop c)).2.trans (List.drop_suffix c buffer)⟩

/-- C4: after a parse pass the buffer is at most 10000 bytes long; the
pass only ever keeps a suffix of the incoming buffer (bytes leave from
the front); and when no packet was found in an over-long buffer, the
result is exactly the trailing 1000 bytes. -/
theorem c4_buffer_bounded (p : Plausibility) (now : Nat) (buffer : List Nat) :
    (parsePass p now buffer).1.length ≤ 10000 ∧
    (parsePass p now buffer).1 <:+ buffer ∧
    (find_packet p now buffer = none → 10000 < buffer.length →
      (parsePass p now buffer).1 = buffer.drop (buffer.length - 1000)) := by
  refine ⟨(parsePassGo_bounded p now buffer.length buffer).1,
    (parsePassGo_bounded p now buffer.length buffer).2, ?_⟩
  intro hnone hlen
  have hswap := parsePassGo_fuel p now buffer.length (buffer.length + 1) buffer
    le_rfl (by omega)
  rw [parsePass, hswap]
  simp only [parsePassGo, hnone, capBuffer]
  rw [if_pos hlen]

theorem c4_witness :
    find_packet pFalse 0 (List.replicate 10001 0) = none ∧
    (parsePass pFalse 0 (List.replicate 10001 0)).1 =
      (List.replicate 10001 (0:Nat)).drop 9001 ∧
    (parsePass pFalse 0 (List.replicate 10001 0)).1.length ≤ 10000 := by
  have hfp : find_packet pFalse 0 (List.replicate 10001 0) = none :=
    find_packet_eq_none fun o _ _ => rfl
  refine ⟨hfp, ?_, (c4_buffer_bounded pFalse 0 _).1⟩
  have h := (c4_buffer_bounded pFalse 0 (List.replicate 10001 0)).2.2 hfp
    (by rw [List.length_replicate]; omega)
  rw [List.length_replicate] at h
  exact h

/-- C5: a full 193862-byte packet decodes to a 378-row grid whose pixel
at row y and column x is the high nibble of packet byte
320 + y * 512 + x, scaled by 17. -/
theorem c5_decode (packet : List Nat) (hlen : packet.length = PACKET_SIZE) :
    ∃ img, decode_frame packet = some img ∧ img.length = HEIGHT ∧
      ∀ y x, y < HEIGHT → x < WIDTH →
        (img.getD y []).getD x 0 =
          byteAt packet (HEADER_OFFSET + (y * WIDTH + x)) / 16 % 16 * 17 := by
  obtain ⟨img, h1, h2, h3⟩ := decode_frame_spec packet (by rw [hlen]; decide)
  exact ⟨img, h1, h2, fun y x hy hx => (h3 y hy).2 x hx⟩

theorem c5_witness :
    (List.replicate PACKET_SIZE (255:Nat)).length = PACKET_SIZE ∧
    ∃ img, decode_frame (List.replicate PACKET_SIZE 255) = some img ∧
      img.length = HEIGHT ∧
      ∀ y x, y < HEIGHT → x < WIDTH →
        (img.getD y []).getD x 0 =
          byteAt (List.replicate PACKET_SIZE 255)
            (HEADER_OFFSET + (y * WIDTH + x)) / 16 % 16 * 17 :=
  ⟨List.length_replicate _ _, c5_decode _ (List.length_replicate _ _)⟩

/-- C6 as stated is false: the packet holds 193862 - 320 = 193542 bytes
after the header, not 193536, and the 6 bytes past the image region are
not decoded: replacing them changes nothing in the decoded frame. -/
theorem c6_counterexample :
    PACKET_SIZE - HEADER_OFFSET ≠ IMAGE_SIZE ∧
    decode_frame (List.replicate PACKET_SIZE 0) =
      decode_frame (List.replicate 193856 0 ++ List.replicate 6 255) := by
  have hrep : (List.replicate 193856 (0:Nat)).length = HEADER_OFFSET + IMAGE_SIZE := by
    rw [List.length_replicate]
    decide
  constructor
  · decide
  · have hsplit : List.replicate PACKET_SIZE (0:Nat) =
        List.replicate 193856 0 ++ List.replicate 6 0 := by
      show List.replicate (193856 + 6) (0:Nat) = _
      rw [List.replicate_add]
    rw [hsplit, decode_frame_ignores_tail _ _ hrep,
      decode_frame_ignores_tail _ _ hrep]

/-- C6 (amended): the pixel region of a 193862-byte packet is the 193536
bytes at offsets 320 to 193855 (512 times 378 pixels); the final 6 bytes
of the packet are left undecoded and have no effect on the frame. -/
theorem c6_pixel_region (p q : List Nat) (hp : p.length = HEADER_OFFSET + IMAGE_SIZE)
    (hq : q.length = 6) :
    (p ++ q).length = PACKET_SIZE ∧ decode_frame (p ++ q) = decode_frame p := by
  constructor
  · rw [List.length_append, hp, hq]
    decide
  · exact decode_frame_ignores_tail p q hp

theorem c6_witness :
    (List.replicate 193856 (3:Nat)).length = HEADER_OFFSET + IMAGE_SIZE ∧
    ([1, 2, 3, 4, 5, 6] : List Nat).length = 6 ∧
    (List.replicate 193856 (3:Nat) ++ [1, 2, 3, 4, 5, 6]).length = PACKET_SIZE ∧
    decode_frame (List.replicate 193856 3 ++ [1, 2, 3, 4, 5, 6]) =
      decode_frame (List.replicate 193856 3) := by
  have hp : (List.replicate 193856 (3:Nat)).length = HEADER_OFFSET + IMAGE_SIZE := by
    rw [List.length_replicate]
    decide
  have h := c6_pixel_region (List.replicate 193856 3) [1, 2, 3, 4, 5, 6] hp rfl
  exact ⟨hp, rfl, h.1, h.2⟩

theorem scanFrom_clock (p : Plausibility) (now1 now2 : Nat) (buffer : List Nat) :
    ∀ l, (scanFrom p now1 buffer l).map
        (fun r => (r.1.gyro_x, r.1.gyro_y, r.1.gyro_z, r.1.accel_x, r.1.accel_y,
          r.1.accel_z, r.2)) =
      (scanFrom p now2 buffer l).map
        (fun r => (r.1.gyro_x, r.1.gyro_y, r.1.gyro_z, r.1.accel_x, r.1.accel_y,
          r.1.accel_z, r.2)) := by
  intro l
  induction l with
  | nil => rfl
  | cons o rest ih =>
    simp only [scanFrom]
    by_cases ho : plausibleAt p buffer o = true
    · rw [if_pos ho, if_pos ho]
      rfl
    · rw [if_neg ho, if_neg ho]
      exact ih

/-- C7 as stated is false: two runs of find_packet over the same buffer
at different clock readings return samples differing in the timestamp
field, because the decoder stamps each sample with time.time(). -/
theorem c7_counterexample :
    find_packet pTrue 0 (List.replicate 25 0) ≠
      find_packet pTrue 1 (List.replicate 25 0) := by decide

/-- C7 (amended): apart from the receive timestamp the motion decode is a
pure function of the buffer: the six float fields and the consumed count
do not depend on the clock; and the video decode is a pure function of
the packet bytes alone. -/
theorem c7_determinism (p : Plausibility) (now1 now2 : Nat) (buffer : List Nat) :
    (find_packet p now1 buffer).map
        (fun r => (r.1.gyro_x, r.1.gyro_y, r.1.gyro_z, r.1.accel_x, r.1.accel_y,
          r.1.accel_z, r.2)) =
      (find_packet p now2 buffer).map
        (fun r => (r.1.gyro_x, r.1.gyro_y, r.1.gyro_z, r.1.accel_x, r.1.accel_y,
          r.1.accel_z, r.2)) ∧
    ∀ packet1 packet2 : List Nat, packet1 = packet2 →
      decode_frame packet1 = decode_frame packet2 :=
  ⟨scanFrom_clock p now1 now2 buffer _, fun _ _ h => h ▸ rfl⟩

theorem c7_witness :
    (find_packet pTrue 0 (List.replicate 26 0)).map
        (fun r => (r.1.gyro_x, r.1.gyro_y, r.1.gyro_z, r.1.accel_x, r.1.accel_y,
          r.1.accel_z, r.2)) =
      (find_packet pTrue 5 (List.replicate 26 0)).map
        (fun r => (r.1.gyro_x, r.1.gyro_y, r.1.gyro_z, r.1.accel_x, r.1.accel_y,
          r.1.accel_z, r.2)) ∧
    decode_frame [] = decode_frame [] :=
  ⟨(c7_determinism pTrue 0 5 (List.replicate 26 0)).1,
    (c7_determinism pTrue 0 5 []).2 [] [] rfl⟩

/-- C8: whatever the consumer callback does, including raising, the
per-packet step returns ok (the read loop continues) and the cached
latest value is the decoded sample: the cache is written before the
callback runs, and a callback error is caught inside dataCallbackStep. -/
theorem c8_callback_isolated {ε : Type} (on_data : Option (ImuData → Except ε Unit))
    (d : ImuData) (latest : Option ImuData) :
    handlePacket on_data d latest = Except.ok (some d) := by
  cases on_data with
  | none => rfl
  | some cb =>
    cases hcb : cb d with
    | ok u => simp [handlePacket, dataCallbackStep, hcb]
    | error e => simp [handlePacket, dataCallbackStep, hcb]

/-- C10: decode_frame is total with option-valued failure: short packets
give None, and any packet of at least 193856 bytes gives a grid of
exactly 378 rows of 512 pixels. -/
theorem c10_total (packet : List Nat) :
    (packet.length < HEADER_OFFSET + IMAGE_SIZE → decode_frame packet = none) ∧
    (HEADER_OFFSET + IMAGE_SIZE ≤ packet.length →
      ∃ img, decode_frame packet = some img ∧ img.length = HEIGHT ∧
        ∀ row ∈ img, row.length = WIDTH) := by
  constructor
  · intro h
    unfold decode_frame
    rw [if_pos h]
  · intro h
    obtain ⟨img, h1, h2, h3⟩ := decode_frame_spec packet h
    refine ⟨img, h1, h2, fun row hrow => ?_⟩
    obtain ⟨⟨y, hy⟩, hget⟩ := List.mem_iff_get.mp hrow
    have hyH : y < HEIGHT := h2 ▸ hy
    have hgetD : img.getD y [] = img.get ⟨y, hy⟩ := by
      rw [List.getD_eq_getElem?_getD, List.getElem?_eq_getElem hy]
      rfl
    rw [← hget, ← hgetD]
    exact (h3 y hyH).1

theorem c10_witness :
    ([] : List Nat).length < HEADER_OFFSET + IMAGE_SIZE ∧
    decode_frame [] = none ∧
    HEADER_OFFSET + IMAGE_SIZE ≤ (List.replicate 193856 (7:Nat)).length ∧
    ∃ img, decode_frame (List.replicate 193856 7) = some img ∧
      img.length = HEIGHT ∧ ∀ row ∈ img, row.length = WIDTH := by
  have hle : HEADER_OFFSET + IMAGE_SIZE ≤ (List.replicate 193856 (7:Nat)).length := by
    rw [List.length_replicate]
    decide
  exact ⟨by decide, (c10_total []).1 (by decide), hle, (c10_total _).2 hle⟩

end XrealClient
